/-
A verification development for a binomial (Cox-Ross-Rubinstein) European
call option pricer written in C (binomial.c).

The C program's doubles are modelled by real numbers.  The two
heap-allocated arrays of the pricer are modelled twice:

* as total functions `ℕ → ℝ` (the mathematical model used for the
  functional-correctness theorems), and
* as `List (Option ℝ)` with `Option`-returning reads and bounds-checked
  writes (the checked model used to show every array access of the C code
  is in bounds and reads only previously written slots).

Division by zero in ℝ is total (`x / 0 = 0`), which is the usual
convention of a shallow real-number embedding of floating-point code.
-/
import Mathlib

namespace Binomial

/-- The C `option` struct: the five market parameters. -/
structure option where
  asset : ℝ
  strike : ℝ
  expiry : ℝ
  rate : ℝ
  volatility : ℝ

/-- `Payoff(price, strike)`: the C helper
`if (price > strike) return price - strike; else return 0;`. -/
noncomputable def Payoff (price strike : ℝ) : ℝ :=
  if price > strike then price - strike else 0

/-- `double step = opt.expiry / n;` (the time increment `dt`). -/
noncomputable def step (o : option) (n : ℕ) : ℝ := o.expiry / n

/-- `double discount = exp(-opt.rate * step);`. -/
noncomputable def discount (o : option) (n : ℕ) : ℝ :=
  Real.exp (-o.rate * step o n)

/-- `double ufactor = 0.5 * (discount + exp((opt.rate + opt.volatility * opt.volatility) * step));`. -/
noncomputable def ufactor (o : option) (n : ℕ) : ℝ :=
  0.5 * (discount o n + Real.exp ((o.rate + o.volatility * o.volatility) * step o n))

/-- `double u = ufactor + sqrt(ufactor * ufactor - 1);`. -/
noncomputable def u (o : option) (n : ℕ) : ℝ :=
  ufactor o n + Real.sqrt (ufactor o n * ufactor o n - 1)

/-- `double v = 1.0 / u;`. -/
noncomputable def v (o : option) (n : ℕ) : ℝ := 1 / u o n

/-- `double p = (exp(opt.rate * step) - v) / (u - v);`. -/
noncomputable def p (o : option) (n : ℕ) : ℝ :=
  (Real.exp (o.rate * step o n) - v o n) / (u o n - v o n)

/-- The initial contents of `assetPrices` after `assetPrices[0] = opt.asset;`:
slot 0 holds the asset price; all other slots are uninitialized `malloc`
memory, modelled as 0 here (the checked model below shows they are never
read before being written). -/
noncomputable def assetInit (o : option) : ℕ → ℝ :=
  fun j => if j = 0 then o.asset else 0

/-- One pass of the forward lattice construction, step `idx`:
`for (jdx = idx; jdx >= 1; jdx--) assetPrices[jdx] = u * assetPrices[jdx-1];`
followed by `assetPrices[0] = v * assetPrices[0];`.
The descending inner loop reads only slots not yet written in this pass,
so the pass is the simultaneous update below (the checked sequential model
below is proved to agree with it). -/
noncomputable def forwardStep (uc vc : ℝ) (idx : ℕ) (a : ℕ → ℝ) : ℕ → ℝ :=
  fun j => if j = 0 then vc * a 0 else if j ≤ idx then uc * a (j - 1) else a j

/-- The outer forward loop `for (idx = 1; idx <= k; idx++)`. -/
noncomputable def forwardIter (uc vc : ℝ) : ℕ → (ℕ → ℝ) → (ℕ → ℝ)
  | 0, a => a
  | k + 1, a => forwardStep uc vc (k + 1) (forwardIter uc vc k a)

/-- The `assetPrices` array after the full forward construction with `n` steps. -/
noncomputable def assetPrices (o : option) (n : ℕ) : ℕ → ℝ :=
  forwardIter (u o n) (v o n) n (assetInit o)

/-- The `optionPrices` array after the terminal-payoff loop
`for (jdx = 0; jdx <= n; jdx++) optionPrices[jdx] = Payoff(assetPrices[jdx], opt.strike);`. -/
noncomputable def optionPrices (o : option) (n : ℕ) : ℕ → ℝ :=
  fun j => Payoff (assetPrices o n j) o.strike

/-- One backward-induction pass with inner-loop bound `bound`:
`for (jdx = 0; jdx < bound; jdx++)
   optionPrices[jdx] = discount * (p * optionPrices[jdx+1] + (1-p) * optionPrices[jdx]);`.
The ascending inner loop writes slot `jdx` reading only the not-yet-updated
slots `jdx` and `jdx+1`, so the pass is the simultaneous update below. -/
noncomputable def backStep (d q : ℝ) (bound : ℕ) (a : ℕ → ℝ) : ℕ → ℝ :=
  fun j => if j < bound then d * (q * a (j + 1) + (1 - q) * a j) else a j

/-- The outer backward loop of the C code, `k` passes each with the fixed
inner bound `n` (`for (idx = n; idx >= 1; idx--) for (jdx = 0; jdx < n; jdx++) ...`). -/
noncomputable def backIterFull (d q : ℝ) (n : ℕ) : ℕ → (ℕ → ℝ) → (ℕ → ℝ)
  | 0, a => a
  | k + 1, a => backIterFull d q n k (backStep d q n a)

/-- Modelled from the spec (§4.1 step 9), for comparison with the code's
fixed-bound loop: backward induction with the shrinking inner bound, `for
step from k down to 1, for j from 0 to step-1`. -/
noncomputable def backIterTri (d q : ℝ) : ℕ → (ℕ → ℝ) → (ℕ → ℝ)
  | 0, a => a
  | k + 1, a => backIterTri d q k (backStep d q (k + 1) a)

/-- `OptionPrice(opt)` with the C code's fixed `n = 1000`: forward lattice,
terminal payoffs, `n` backward passes, return `optionPrices[0]`. -/
noncomputable def OptionPrice (o : option) : ℝ :=
  backIterFull (discount o 1000) (p o 1000) 1000 1000 (optionPrices o 1000) 0

/-! Spec-side lattice constants, written from the spec's formulas (§4.1
steps 1-6) for comparison with the code's constants. -/

/-- Modelled from the spec: `dt = expiry / n`. -/
noncomputable def dtSpec (o : option) (n : ℕ) : ℝ := o.expiry / n

/-- Modelled from the spec: `discount = exp(-rate * dt)`. -/
noncomputable def discountSpec (o : option) (n : ℕ) : ℝ :=
  Real.exp (-(o.rate * dtSpec o n))

/-- Modelled from the spec: `ufactor = 0.5 * (discount + exp((rate + volatility^2) * dt))`. -/
noncomputable def ufactorSpec (o : option) (n : ℕ) : ℝ :=
  0.5 * (discountSpec o n + Real.exp ((o.rate + o.volatility ^ 2) * dtSpec o n))

/-- Modelled from the spec: `u = ufactor + sqrt(ufactor^2 - 1)`. -/
noncomputable def uSpec (o : option) (n : ℕ) : ℝ :=
  ufactorSpec o n + Real.sqrt (ufactorSpec o n ^ 2 - 1)

/-- Modelled from the spec: `v = 1/u`. -/
noncomputable def vSpec (o : option) (n : ℕ) : ℝ := 1 / uSpec o n

/-- Modelled from the spec: `p = (exp(rate*dt) - v) / (u - v)`, with no
clamping of `p` to `[0,1]`. -/
noncomputable def pSpec (o : option) (n : ℕ) : ℝ :=
  (Real.exp (o.rate * dtSpec o n) - vSpec o n) / (uSpec o n - vSpec o n)

/-- A sample admissible option used by the witness theorems:
asset 100, strike 100, one year to expiry, rate 5%, volatility 0.2. -/
noncomputable def testOpt : option :=
  { asset := 100, strike := 100, expiry := 1, rate := 1 / 20, volatility := 1 / 5 }

/-! ### Claim C4 -/

/-- The C branch computes the positive part. -/
lemma payoff_as_max (price strike : ℝ) :
    Payoff price strike = max (price - strike) 0 := by
  unfold Payoff
  rcases le_or_lt price strike with h | h
  · rw [if_neg (not_lt.mpr h), max_eq_right (by linarith)]
  · rw [if_pos h, max_eq_left (by linarith)]

/-- Claim C4: for every pair of reals, `Payoff(price, strike)` equals
`max (price - strike) 0`; being a Lean function, `Payoff` is pure and total. -/
theorem payoff_eq_max (price strike : ℝ) :
    Payoff price strike = max (price - strike) 0 :=
  payoff_as_max price strike

/-! ### Claim C3 -/

/-- Claim C3: the lattice constants computed by `OptionPrice` (with the
code's `n = 1000`) coincide with the spec's formulas for `dt`, `discount`,
`ufactor`, `u`, `v` and the unclamped risk-neutral probability `p`. -/
theorem constants_eq_spec (o : option) :
    step o 1000 = dtSpec o 1000 ∧
    discount o 1000 = discountSpec o 1000 ∧
    ufactor o 1000 = ufactorSpec o 1000 ∧
    u o 1000 = uSpec o 1000 ∧
    v o 1000 = vSpec o 1000 ∧
    p o 1000 = pSpec o 1000 := by
  have hdt : step o 1000 = dtSpec o 1000 := rfl
  have hdisc : discount o 1000 = discountSpec o 1000 := by
    unfold discount discountSpec
    rw [hdt, neg_mul]
  have hufac : ufactor o 1000 = ufactorSpec o 1000 := by
    unfold ufactor ufactorSpec
    rw [hdt, hdisc, sq]
  have hu : u o 1000 = uSpec o 1000 := by
    unfold u uSpec
    rw [hufac, sq]
  have hv : v o 1000 = vSpec o 1000 := by
    unfold v vSpec
    rw [hu]
  refine ⟨hdt, hdisc, hufac, hu, hv, ?_⟩
  unfold p pSpec
  rw [hdt, hu, hv]

/-! ### Claim C2 -/

/-- Slots above the last completed forward step are untouched. -/
lemma forwardIter_high (uc vc : ℝ) :
    ∀ (k : ℕ) (a : ℕ → ℝ) (j : ℕ), k < j → forwardIter uc vc k a j = a j := by
  intro k
  induction k with
  | zero => intro a j _; rfl
  | succ k ih =>
      intro a j hj
      unfold forwardIter forwardStep
      have hj0 : j ≠ 0 := by omega
      have hjk : ¬ j ≤ k + 1 := by omega
      rw [if_neg hj0, if_neg hjk]
      exact ih a j (by omega)

/-- After `k` forward steps, slot `j ≤ k` holds `asset * uc^j * vc^(k-j)`. -/
lemma forwardIter_closed (o : option) (uc vc : ℝ) :
    ∀ (k j : ℕ), j ≤ k →
      forwardIter uc vc k (assetInit o) j = o.asset * uc ^ j * vc ^ (k - j) := by
  intro k
  induction k with
  | zero =>
      intro j hj
      have : j = 0 := Nat.le_zero.mp hj
      subst this
      simp [forwardIter, assetInit]
  | succ k ih =>
      intro j hj
      unfold forwardIter forwardStep
      rcases Nat.eq_zero_or_pos j with h0 | hpos
      · subst h0
        rw [if_pos rfl, ih 0 (Nat.zero_le k)]
        simp [pow_succ]
        ring
      · obtain ⟨j', rfl⟩ : ∃ j', j = j' + 1 := ⟨j - 1, by omega⟩
        rw [if_neg (by omega), if_pos hj, Nat.add_sub_cancel, ih j' (by omega)]
        have hsub : k + 1 - (j' + 1) = k - j' := by omega
        rw [hsub, pow_succ]
        ring

/-- The closed form of the asset-price array, as a reusable lemma. -/
lemma assetPrices_formula (o : option) (n j : ℕ) (hj : j ≤ n) :
    assetPrices o n j = o.asset * (u o n) ^ j * (v o n) ^ (n - j) :=
  forwardIter_closed o (u o n) (v o n) n j hj

/-- Claim C2: after the forward lattice construction over `n` incremental
steps, the asset-price array holds `asset * u^j * v^(n-j)` at every index
`j ≤ n`. -/
theorem assetPrices_closed (o : option) (n j : ℕ) (hj : j ≤ n) :
    assetPrices o n j = o.asset * (u o n) ^ j * (v o n) ^ (n - j) :=
  assetPrices_formula o n j hj

/-- Witness for C2 at the sample option, `n = 1000`, `j = 2`. -/
theorem assetPrices_closed_witness :
    assetPrices testOpt 1000 2 = testOpt.asset * (u testOpt 1000) ^ 2 * (v testOpt 1000) ^ 998 :=
  assetPrices_closed testOpt 1000 2 (by norm_num)

/-! ### Claim C1 -/

/-- After the backward passes down to step `k`, the value at index 0 depends
only on slots `0..k`; hence `k` fixed-bound passes and the `k` shrinking-bound
passes from step `k` down to 1 agree at index 0. -/
lemma backIterFull_eq_tri_at_zero (d q : ℝ) (n : ℕ) :
    ∀ (k : ℕ), k ≤ n → ∀ (a b : ℕ → ℝ), (∀ j, j ≤ k → a j = b j) →
      backIterFull d q n k a 0 = backIterTri d q k b 0 := by
  intro k
  induction k with
  | zero => intro _ a b h; exact h 0 le_rfl
  | succ k ih =>
      intro hk a b h
      unfold backIterFull backIterTri
      refine ih (by omega) _ _ ?_
      intro j hj
      unfold backStep
      rw [if_pos (by omega : j < n), if_pos (by omega : j < k + 1),
        h j (by omega), h (j + 1) (by omega)]

/-- Claim C1: for admissible parameters, `OptionPrice` (whose inner loop
always runs `j = 0 .. n-1`) returns exactly the value produced by the
spec's shrinking-bound backward induction started from the terminal
payoffs, i.e. the two loop shapes agree at index 0. -/
theorem optionPrice_eq_spec_induction (o : option)
    (ha : 0 < o.asset) (hs : 0 < o.strike) (he : 0 < o.expiry)
    (hv : 0 ≤ o.volatility) :
    OptionPrice o = backIterTri (discount o 1000) (p o 1000) 1000 (optionPrices o 1000) 0 :=
  backIterFull_eq_tri_at_zero _ _ 1000 1000 le_rfl _ _ (fun _ _ => rfl)

/-- Witness for C1 at the sample option. -/
theorem optionPrice_eq_spec_induction_witness :
    OptionPrice testOpt =
      backIterTri (discount testOpt 1000) (p testOpt 1000) 1000 (optionPrices testOpt 1000) 0 :=
  optionPrice_eq_spec_induction testOpt (by norm_num [testOpt]) (by norm_num [testOpt])
    (by norm_num [testOpt]) (by norm_num [testOpt])

/-! ### Lattice-constant bounds -/

lemma step_nonneg (o : option) (n : ℕ) (he : 0 < o.expiry) : 0 ≤ step o n :=
  div_nonneg he.le (Nat.cast_nonneg n)

lemma discount_nonneg (o : option) (n : ℕ) : 0 ≤ discount o n :=
  (Real.exp_pos _).le

/-- AM-GM for the two exponentials: under the section-3 invariants the
intermediate `ufactor` is at least `exp(volatility^2 * dt / 2) ≥ 1`. -/
lemma one_le_ufactor (o : option) (n : ℕ) (he : 0 < o.expiry) :
    1 ≤ ufactor o n := by
  have ht : 0 ≤ step o n := step_nonneg o n he
  have e1 : Real.exp ((-o.rate * step o n) / 2) * Real.exp ((-o.rate * step o n) / 2)
      = Real.exp (-o.rate * step o n) := by
    rw [← Real.exp_add]; congr 1; ring
  have e2 : Real.exp (((o.rate + o.volatility * o.volatility) * step o n) / 2) *
      Real.exp (((o.rate + o.volatility * o.volatility) * step o n) / 2)
      = Real.exp ((o.rate + o.volatility * o.volatility) * step o n) := by
    rw [← Real.exp_add]; congr 1; ring
  have e3 : Real.exp ((-o.rate * step o n) / 2) *
      Real.exp (((o.rate + o.volatility * o.volatility) * step o n) / 2)
      = Real.exp (o.volatility * o.volatility * step o n / 2) := by
    rw [← Real.exp_add]; congr 1; ring
  have hge : 1 ≤ Real.exp (o.volatility * o.volatility * step o n / 2) :=
    Real.one_le_exp (div_nonneg (mul_nonneg (mul_self_nonneg _) ht) (by norm_num))
  have hsq := sq_nonneg (Real.exp ((-o.rate * step o n) / 2) -
    Real.exp (((o.rate + o.volatility * o.volatility) * step o n) / 2))
  unfold ufactor discount
  nlinarith [hsq, e1, e2, e3, hge]

lemma one_le_u (o : option) (n : ℕ) (he : 0 < o.expiry) : 1 ≤ u o n := by
  have h1 := one_le_ufactor o n he
  have h2 := Real.sqrt_nonneg (ufactor o n * ufactor o n - 1)
  unfold u
  linarith

lemma u_pos (o : option) (n : ℕ) (he : 0 < o.expiry) : 0 < u o n :=
  lt_of_lt_of_le one_pos (one_le_u o n he)

lemma v_pos (o : option) (n : ℕ) (he : 0 < o.expiry) : 0 < v o n :=
  div_pos one_pos (u_pos o n he)

lemma v_le_one (o : option) (n : ℕ) (he : 0 < o.expiry) : v o n ≤ 1 := by
  unfold v
  rw [div_le_one (u_pos o n he)]
  exact one_le_u o n he

lemma u_mul_v (o : option) (n : ℕ) (he : 0 < o.expiry) : u o n * v o n = 1 :=
  mul_one_div_cancel (ne_of_gt (u_pos o n he))

/-- `u` and `v = 1/u` are the two roots of `x^2 - 2*ufactor*x + 1`,
so they sum to `2 * ufactor`. -/
lemma u_add_v (o : option) (n : ℕ) (he : 0 < o.expiry) :
    u o n + v o n = 2 * ufactor o n := by
  have hf := one_le_ufactor o n he
  have hface : 0 ≤ ufactor o n * ufactor o n - 1 := by nlinarith
  have hs := Real.mul_self_sqrt hface
  have hroot : u o n * (2 * ufactor o n - u o n) = 1 := by
    unfold u
    nlinarith [hs]
  have hv : 2 * ufactor o n - u o n = 1 / u o n :=
    eq_one_div_of_mul_eq_one_right hroot
  unfold v
  rw [← hv]
  ring

/-- Under the section-3 invariants the risk-neutral probability computed by
the code lies in `[0,1]` (in the degenerate case `u = v` the quotient is
`0/0 = 0` in this real-number model). -/
lemma p_bounds (o : option) (n : ℕ) (he : 0 < o.expiry) :
    0 ≤ p o n ∧ p o n ≤ 1 := by
  have hvu : v o n ≤ u o n := le_trans (v_le_one o n he) (one_le_u o n he)
  rcases eq_or_lt_of_le hvu with hvu_eq | hvu_lt
  · have : u o n - v o n = 0 := by rw [hvu_eq]; ring
    unfold p
    rw [this, div_zero]
    norm_num
  · -- `exp(rate*dt)` lies between the roots `v` and `u`
    have hE : 0 < Real.exp (o.rate * step o n) := Real.exp_pos _
    have huv := u_mul_v o n he
    have hsum := u_add_v o n he
    have hkey : Real.exp (o.rate * step o n) * (u o n + v o n)
        ≥ 1 + Real.exp (o.rate * step o n) * Real.exp (o.rate * step o n) := by
      rw [hsum]
      have h1 : Real.exp (o.rate * step o n) * Real.exp (-o.rate * step o n) = 1 := by
        rw [← Real.exp_add]
        norm_num [Real.exp_zero]
      have h2 : Real.exp (o.rate * step o n) *
          Real.exp ((o.rate + o.volatility * o.volatility) * step o n)
          ≥ Real.exp (o.rate * step o n) * Real.exp (o.rate * step o n) := by
        have := step_nonneg o n he
        have hle : o.rate * step o n ≤ (o.rate + o.volatility * o.volatility) * step o n := by
          nlinarith [mul_self_nonneg o.volatility]
        exact mul_le_mul_of_nonneg_left (Real.exp_le_exp.mpr hle) hE.le
      unfold ufactor discount
      nlinarith [h1, h2]
    have hvE : v o n ≤ Real.exp (o.rate * step o n) := by
      by_contra hcon
      push_neg at hcon
      nlinarith [hkey, huv, hvu_lt, hcon, hE]
    have hEu : Real.exp (o.rate * step o n) ≤ u o n := by
      by_contra hcon
      push_neg at hcon
      nlinarith [hkey, huv, hvu_lt, hcon, hE]
    constructor
    · exact div_nonneg (by linarith) (by linarith)
    · rw [p, div_le_one (by linarith)]
      linarith

/-! ### Claim C5 -/

/-- Counterexample theorem for claim C5: there are NO admissible parameters
with `ufactor^2 < 1`; by AM-GM, `ufactor ≥ 1` whenever `expiry > 0`, for
every real rate and every non-negative volatility. -/
theorem no_negative_radicand :
    ¬ ∃ (o : option) (n : ℕ), (0 < o.asset ∧ 0 < o.strike ∧ 0 < o.expiry ∧
      0 ≤ o.volatility ∧ 1 ≤ n) ∧ ufactor o n * ufactor o n < 1 := by
  rintro ⟨o, n, ⟨-, -, he, -, -⟩, hlt⟩
  have h1 := one_le_ufactor o n he
  nlinarith

/-- Claim C5 (amended): for all admissible parameters the radicand
`ufactor^2 - 1` is non-negative (`ufactor ≥ 1`), so the square root in the
up-factor derivation never receives a negative argument and the domain
error branch is unreachable. -/
theorem radicand_nonneg (o : option) (n : ℕ)
    (ha : 0 < o.asset) (hs : 0 < o.strike) (he : 0 < o.expiry)
    (hv : 0 ≤ o.volatility) (hn : 1 ≤ n) :
    1 ≤ ufactor o n ∧ 0 ≤ ufactor o n * ufactor o n - 1 := by
  have h1 := one_le_ufactor o n he
  exact ⟨h1, by nlinarith⟩

/-- Witness for the amended C5 at the sample option. -/
theorem radicand_nonneg_witness :
    1 ≤ ufactor testOpt 1000 ∧ 0 ≤ ufactor testOpt 1000 * ufactor testOpt 1000 - 1 :=
  radicand_nonneg testOpt 1000 (by norm_num [testOpt]) (by norm_num [testOpt])
    (by norm_num [testOpt]) (by norm_num [testOpt]) (by norm_num)

/-! ### Claim C10 -/

lemma payoff_nonneg (price strike : ℝ) : 0 ≤ Payoff price strike := by
  rw [payoff_as_max]
  exact le_max_right _ _

lemma backStep_nonneg (d q : ℝ) (bound : ℕ) (a : ℕ → ℝ)
    (hd : 0 ≤ d) (hq0 : 0 ≤ q) (hq1 : q ≤ 1) (ha : ∀ j, 0 ≤ a j) :
    ∀ j, 0 ≤ backStep d q bound a j := by
  intro j
  unfold backStep
  by_cases hj : j < bound
  · rw [if_pos hj]
    have h1 : 0 ≤ q * a (j + 1) := mul_nonneg hq0 (ha (j + 1))
    have h2 : 0 ≤ (1 - q) * a j := mul_nonneg (by linarith) (ha j)
    exact mul_nonneg hd (by linarith)
  · rw [if_neg hj]
    exact ha j

lemma backIterFull_nonneg (d q : ℝ) (n : ℕ)
    (hd : 0 ≤ d) (hq0 : 0 ≤ q) (hq1 : q ≤ 1) :
    ∀ (k : ℕ) (a : ℕ → ℝ), (∀ j, 0 ≤ a j) → ∀ j, 0 ≤ backIterFull d q n k a j := by
  intro k
  induction k with
  | zero => intro a ha j; exact ha j
  | succ k ih =>
      intro a ha j
      exact ih _ (backStep_nonneg d q n a hd hq0 hq1 ha) j

/-- Claim C10: after the terminal-payoff loop every entry of
`optionPrices` is non-negative, and under the preconditions
`0 ≤ p ≤ 1` and `0 ≤ discount` every backward pass preserves
non-negativity, so `OptionPrice` returns a non-negative price. -/
theorem optionPrice_nonneg (o : option)
    (hp0 : 0 ≤ p o 1000) (hp1 : p o 1000 ≤ 1) (hd : 0 ≤ discount o 1000) :
    (∀ j, 0 ≤ optionPrices o 1000 j) ∧ 0 ≤ OptionPrice o := by
  have hpay : ∀ j, 0 ≤ optionPrices o 1000 j := fun j => payoff_nonneg _ _
  exact ⟨hpay, backIterFull_nonneg _ _ 1000 hd hp0 hp1 1000 _ hpay 0⟩

/-- Witness for C10 at the sample option: the preconditions `0 ≤ p ≤ 1`
hold there by `p_bounds`, and the discount factor is an exponential. -/
theorem optionPrice_nonneg_witness :
    (∀ j, 0 ≤ optionPrices testOpt 1000 j) ∧ 0 ≤ OptionPrice testOpt :=
  optionPrice_nonneg testOpt
    (p_bounds testOpt 1000 (by norm_num [testOpt])).1
    (p_bounds testOpt 1000 (by norm_num [testOpt])).2
    (discount_nonneg testOpt 1000)

/-! ### Claim C6 -/

lemma payoff_mono (x y strike : ℝ) (hxy : x ≤ y) :
    Payoff x strike ≤ Payoff y strike := by
  rw [payoff_as_max, payoff_as_max]
  exact max_le_max (by linarith) le_rfl

lemma backStep_mono (d q : ℝ) (bound : ℕ) (a b : ℕ → ℝ)
    (hd : 0 ≤ d) (hq0 : 0 ≤ q) (hq1 : q ≤ 1) (hab : ∀ j, a j ≤ b j) :
    ∀ j, backStep d q bound a j ≤ backStep d q bound b j := by
  intro j
  unfold backStep
  by_cases hj : j < bound
  · rw [if_pos hj, if_pos hj]
    have h1 : q * a (j + 1) ≤ q * b (j + 1) := mul_le_mul_of_nonneg_left (hab (j + 1)) hq0
    have h2 : (1 - q) * a j ≤ (1 - q) * b j := mul_le_mul_of_nonneg_left (hab j) (by linarith)
    exact mul_le_mul_of_nonneg_left (by linarith) hd
  · rw [if_neg hj, if_neg hj]
    exact hab j

lemma backIterFull_mono (d q : ℝ) (n : ℕ)
    (hd : 0 ≤ d) (hq0 : 0 ≤ q) (hq1 : q ≤ 1) :
    ∀ (k : ℕ) (a b : ℕ → ℝ), (∀ j, a j ≤ b j) →
      ∀ j, backIterFull d q n k a j ≤ backIterFull d q n k b j := by
  intro k
  induction k with
  | zero => intro a b hab j; exact hab j
  | succ k ih =>
      intro a b hab j
      exact ih _ _ (backStep_mono d q n a b hd hq0 hq1 hab) j

/-- The lattice constants depend only on expiry, rate and volatility. -/
lemma constants_congr (o1 o2 : option) (n : ℕ)
    (hexp : o1.expiry = o2.expiry) (hrate : o1.rate = o2.rate)
    (hvol : o1.volatility = o2.volatility) :
    discount o1 n = discount o2 n ∧ u o1 n = u o2 n ∧
      v o1 n = v o2 n ∧ p o1 n = p o2 n := by
  have hstep : step o1 n = step o2 n := by unfold step; rw [hexp]
  have hdisc : discount o1 n = discount o2 n := by unfold discount; rw [hstep, hrate]
  have hufac : ufactor o1 n = ufactor o2 n := by
    unfold ufactor; rw [hstep, hrate, hvol, hdisc]
  have hu : u o1 n = u o2 n := by unfold u; rw [hufac]
  have hv : v o1 n = v o2 n := by unfold v; rw [hu]
  refine ⟨hdisc, hu, hv, ?_⟩
  unfold p
  rw [hstep, hrate, hu, hv]

/-- Claim C6: holding strike, expiry, rate, volatility (and the step
count `n = 1000`) fixed, `OptionPrice` is monotonically non-decreasing in
the asset price. -/
theorem optionPrice_mono_asset (o1 o2 : option)
    (hstrike : o1.strike = o2.strike) (hexp : o1.expiry = o2.expiry)
    (hrate : o1.rate = o2.rate) (hvol : o1.volatility = o2.volatility)
    (ha : 0 < o1.asset) (hs : 0 < o1.strike) (he : 0 < o1.expiry)
    (hv : 0 ≤ o1.volatility) (hasset : o1.asset ≤ o2.asset) :
    OptionPrice o1 ≤ OptionPrice o2 := by
  obtain ⟨hdisc, hu, hvv, hp⟩ := constants_congr o1 o2 1000 hexp hrate hvol
  have hu1 := one_le_u o1 1000 he
  have hv1 := v_pos o1 1000 he
  have hpay : ∀ j, optionPrices o1 1000 j ≤ optionPrices o2 1000 j := by
    intro j
    unfold optionPrices
    rw [hstrike]
    apply payoff_mono
    rcases le_or_lt j 1000 with hj | hj
    · rw [assetPrices_formula o1 1000 j hj, assetPrices_formula o2 1000 j hj, ← hu, ← hvv]
      have hx : (0:ℝ) ≤ u o1 1000 ^ j := pow_nonneg (by linarith) j
      have hy : (0:ℝ) ≤ v o1 1000 ^ (1000 - j) := pow_nonneg hv1.le (1000 - j)
      exact mul_le_mul_of_nonneg_right (mul_le_mul_of_nonneg_right hasset hx) hy
    · have h1 : assetPrices o1 1000 j = 0 := by
        unfold assetPrices
        rw [forwardIter_high _ _ 1000 _ j hj]
        unfold assetInit
        rw [if_neg (by omega)]
      have h2 : assetPrices o2 1000 j = 0 := by
        unfold assetPrices
        rw [forwardIter_high _ _ 1000 _ j hj]
        unfold assetInit
        rw [if_neg (by omega)]
      rw [h1, h2]
  have hp0 := (p_bounds o1 1000 he).1
  have hp1 := (p_bounds o1 1000 he).2
  unfold OptionPrice
  rw [← hdisc, ← hp]
  exact backIterFull_mono _ _ 1000 (discount_nonneg o1 1000) hp0 hp1 1000 _ _ hpay 0

/-- The sample option with a higher asset price, for the C6 witness. -/
noncomputable def testOptHi : option :=
  { asset := 110, strike := 100, expiry := 1, rate := 1 / 20, volatility := 1 / 5 }

/-- Witness for C6: two sample options differing only in asset price. -/
theorem optionPrice_mono_asset_witness :
    OptionPrice testOpt ≤ OptionPrice testOptHi :=
  optionPrice_mono_asset testOpt testOptHi
    (by norm_num [testOpt, testOptHi]) (by norm_num [testOpt, testOptHi])
    (by norm_num [testOpt, testOptHi]) (by norm_num [testOpt, testOptHi])
    (by norm_num [testOpt]) (by norm_num [testOpt]) (by norm_num [testOpt])
    (by norm_num [testOpt]) (by norm_num [testOpt, testOptHi])

/-! ### Claim C7 -/

/-- Claim C7: `OptionPrice` is a pure function of its five parameters — in
this embedding it is a mathematical function of the `option` record, so two
calls with identical parameter values return identical results. -/
theorem optionPrice_deterministic (o1 o2 : option)
    (h1 : o1.asset = o2.asset) (h2 : o1.strike = o2.strike)
    (h3 : o1.expiry = o2.expiry) (h4 : o1.rate = o2.rate)
    (h5 : o1.volatility = o2.volatility) :
    OptionPrice o1 = OptionPrice o2 := by
  cases o1
  cases o2
  dsimp only at h1 h2 h3 h4 h5
  subst h1 h2 h3 h4 h5
  rfl

/-- Witness for C7: applying the theorem to two syntactically identical
calls at the sample option. -/
theorem optionPrice_deterministic_witness :
    OptionPrice testOpt = OptionPrice testOpt :=
  optionPrice_deterministic testOpt testOpt rfl rfl rfl rfl rfl

/-! ### Claim C8 -/

lemma backStep_bounded (d q M : ℝ) (bound : ℕ) (a : ℕ → ℝ)
    (hd0 : 0 ≤ d) (hd1 : d ≤ 1) (hq0 : 0 ≤ q) (hq1 : q ≤ 1)
    (ha : ∀ j, 0 ≤ a j ∧ a j ≤ M) :
    ∀ j, 0 ≤ backStep d q bound a j ∧ backStep d q bound a j ≤ M := by
  intro j
  unfold backStep
  by_cases hj : j < bound
  · rw [if_pos hj]
    obtain ⟨h1, h2⟩ := ha j
    obtain ⟨h3, h4⟩ := ha (j + 1)
    constructor
    · have := mul_nonneg hq0 h3
      have := mul_nonneg (by linarith : (0:ℝ) ≤ 1 - q) h1
      exact mul_nonneg hd0 (by linarith)
    · have hcomb : q * a (j + 1) + (1 - q) * a j ≤ M := by nlinarith
      have hcnn : 0 ≤ q * a (j + 1) + (1 - q) * a j := by nlinarith
      nlinarith
  · rw [if_neg hj]
    exact ha j

lemma backIterFull_bounded (d q M : ℝ) (n : ℕ)
    (hd0 : 0 ≤ d) (hd1 : d ≤ 1) (hq0 : 0 ≤ q) (hq1 : q ≤ 1) :
    ∀ (k : ℕ) (a : ℕ → ℝ), (∀ j, 0 ≤ a j ∧ a j ≤ M) →
      ∀ j, 0 ≤ backIterFull d q n k a j ∧ backIterFull d q n k a j ≤ M := by
  intro k
  induction k with
  | zero => intro a ha j; exact ha j
  | succ k ih =>
      intro a ha j
      exact ih _ (backStep_bounded d q M n a hd0 hd1 hq0 hq1 ha) j

/-- For an at-the-money option with zero rate, the price is squeezed
between 0 and `asset * (u^1000 - 1)`. -/
lemma optionPrice_squeeze (o : option)
    (hA : 0 < o.asset) (he : 0 < o.expiry) (hsk : o.strike = o.asset)
    (hr : o.rate = 0) :
    0 ≤ OptionPrice o ∧ OptionPrice o ≤ o.asset * (u o 1000 ^ 1000 - 1) := by
  have hu1 := one_le_u o 1000 he
  have hv0 := v_pos o 1000 he
  have hv1 := v_le_one o 1000 he
  have hupow : (1:ℝ) ≤ u o 1000 ^ 1000 := one_le_pow₀ hu1
  have hM : 0 ≤ o.asset * (u o 1000 ^ 1000 - 1) := mul_nonneg hA.le (by linarith)
  have hdisc1 : discount o 1000 = 1 := by
    unfold discount
    rw [hr]
    norm_num
  have hpay : ∀ j, 0 ≤ optionPrices o 1000 j ∧
      optionPrices o 1000 j ≤ o.asset * (u o 1000 ^ 1000 - 1) := by
    intro j
    refine ⟨payoff_nonneg _ _, ?_⟩
    rcases le_or_lt j 1000 with hj | hj
    · unfold optionPrices
      rw [payoff_as_max, assetPrices_formula o 1000 j hj, hsk]
      apply max_le _ hM
      have hvpow : v o 1000 ^ (1000 - j) ≤ 1 := pow_le_one₀ hv0.le hv1
      have hupj : u o 1000 ^ j ≤ u o 1000 ^ 1000 := pow_le_pow_right₀ hu1 hj
      have hx1 : o.asset * u o 1000 ^ j * v o 1000 ^ (1000 - j) ≤ o.asset * u o 1000 ^ j := by
        have h0 : 0 ≤ o.asset * u o 1000 ^ j :=
          mul_nonneg hA.le (pow_nonneg (by linarith) j)
        nlinarith
      have hx2 : o.asset * u o 1000 ^ j ≤ o.asset * u o 1000 ^ 1000 :=
        mul_le_mul_of_nonneg_left hupj hA.le
      nlinarith
    · unfold optionPrices assetPrices
      rw [forwardIter_high _ _ 1000 _ j hj]
      unfold assetInit
      rw [if_neg (by omega), payoff_as_max]
      apply max_le _ hM
      rw [hsk]
      linarith
  have hp0 := (p_bounds o 1000 he).1
  have hp1 := (p_bounds o 1000 he).2
  have := backIterFull_bounded (discount o 1000) (p o 1000)
    (o.asset * (u o 1000 ^ 1000 - 1)) 1000 (discount_nonneg o 1000)
    (le_of_eq hdisc1) hp0 hp1 1000 (optionPrices o 1000) hpay 0
  exact this

/-- At zero rate and zero volatility the lattice collapses:
`discount = 1`, `ufactor = 1`, `u = v = 1`, and `p = 0/0 = 0` under the
real-division convention. -/
lemma degenerate_constants (o : option) (hr : o.rate = 0) (hv : o.volatility = 0)
    (n : ℕ) :
    discount o n = 1 ∧ ufactor o n = 1 ∧ u o n = 1 ∧ v o n = 1 ∧ p o n = 0 := by
  have hd : discount o n = 1 := by
    unfold discount
    rw [hr]
    norm_num
  have hf : ufactor o n = 1 := by
    unfold ufactor
    rw [hr, hv, hd]
    norm_num
  have hu : u o n = 1 := by
    unfold u
    rw [hf]
    norm_num
  have hvv : v o n = 1 := by
    unfold v
    rw [hu]
    norm_num
  have hp : p o n = 0 := by
    unfold p
    rw [hr, hu, hvv]
    norm_num
  exact ⟨hd, hf, hu, hvv, hp⟩

lemma backIterFull_of_zero (d q : ℝ) (n : ℕ) :
    ∀ (k : ℕ) (a : ℕ → ℝ), (∀ j, a j = 0) → ∀ j, backIterFull d q n k a j = 0 := by
  intro k
  induction k with
  | zero => intro a ha j; exact ha j
  | succ k ih =>
      intro a ha j
      refine ih _ (fun i => ?_) j
      unfold backStep
      by_cases hi : i < n
      · rw [if_pos hi, ha i, ha (i + 1)]
        ring
      · rw [if_neg hi]
        exact ha i

/-- At the money, zero rate, volatility exactly zero: the price is 0. -/
lemma optionPrice_degenerate (o : option) (hA : 0 < o.asset)
    (hsk : o.strike = o.asset) (hr : o.rate = 0) (hv : o.volatility = 0) :
    OptionPrice o = 0 := by
  obtain ⟨-, -, hu, hvv, -⟩ := degenerate_constants o hr hv 1000
  have hpay : ∀ j, optionPrices o 1000 j = 0 := by
    intro j
    rcases le_or_lt j 1000 with hj | hj
    · unfold optionPrices
      rw [assetPrices_formula o 1000 j hj, hu, hvv, one_pow, one_pow, mul_one, mul_one,
        payoff_as_max, hsk]
      simp
    · unfold optionPrices assetPrices
      rw [forwardIter_high _ _ 1000 _ j hj]
      unfold assetInit
      rw [if_neg (by omega), payoff_as_max, hsk, max_eq_right (by linarith)]
  exact backIterFull_of_zero _ _ 1000 1000 _ hpay 0

/-- As a function of the volatility (asset `A`, strike `A`, expiry `T`,
rate 0 fixed), the code's `ufactor` is continuous. -/
lemma continuous_ufactor_vol (A T : ℝ) :
    Continuous (fun s : ℝ => ufactor ⟨A, A, T, 0, s⟩ 1000) := by
  unfold ufactor discount step
  dsimp only
  exact continuous_const.mul (continuous_const.add (Real.continuous_exp.comp
    ((continuous_const.add (continuous_id.mul continuous_id)).mul continuous_const)))

/-- As a function of the volatility, the code's up-factor `u` is continuous. -/
lemma continuous_u_vol (A T : ℝ) :
    Continuous (fun s : ℝ => u ⟨A, A, T, 0, s⟩ 1000) := by
  have hc := continuous_ufactor_vol A T
  unfold u
  exact hc.add (Real.continuous_sqrt.comp ((hc.mul hc).sub continuous_const))

/-- Claim C8: for `asset = strike = A`, `rate = 0` and the code's 1000
steps, the price tends to `max (A - A) 0 = 0` as the volatility tends to 0
from the right, and at volatility exactly 0 the (real-arithmetic) price is
`max (A - A) 0` as well. -/
theorem optionPrice_vol_to_zero (A T : ℝ) (hA : 0 < A) (hT : 0 < T) :
    Filter.Tendsto (fun s : ℝ => OptionPrice ⟨A, A, T, 0, s⟩)
      (nhdsWithin 0 (Set.Ioi 0)) (nhds (max (A - A) 0)) ∧
    OptionPrice ⟨A, A, T, 0, 0⟩ = max (A - A) 0 := by
  have hmax : max (A - A) 0 = 0 := by norm_num
  constructor
  · rw [hmax]
    have hu0 : u ⟨A, A, T, 0, 0⟩ 1000 = 1 :=
      (degenerate_constants ⟨A, A, T, 0, 0⟩ rfl rfl 1000).2.2.1
    have hgc : Continuous (fun s : ℝ => A * (u ⟨A, A, T, 0, s⟩ 1000 ^ 1000 - 1)) :=
      continuous_const.mul (((continuous_u_vol A T).pow 1000).sub continuous_const)
    have hg0 : A * (u ⟨A, A, T, 0, 0⟩ 1000 ^ 1000 - 1) = 0 := by
      rw [hu0]
      norm_num
    have hgt : Filter.Tendsto (fun s : ℝ => A * (u ⟨A, A, T, 0, s⟩ 1000 ^ 1000 - 1))
        (nhdsWithin 0 (Set.Ioi 0)) (nhds 0) := by
      have h := hgc.tendsto 0
      rw [hg0] at h
      exact h.mono_left nhdsWithin_le_nhds
    refine tendsto_of_tendsto_of_tendsto_of_le_of_le' tendsto_const_nhds hgt ?_ ?_
    · exact eventually_nhdsWithin_of_forall
        (fun s _ => (optionPrice_squeeze ⟨A, A, T, 0, s⟩ hA hT rfl rfl).1)
    · exact eventually_nhdsWithin_of_forall
        (fun s _ => (optionPrice_squeeze ⟨A, A, T, 0, s⟩ hA hT rfl rfl).2)
  · rw [hmax]
    exact optionPrice_degenerate ⟨A, A, T, 0, 0⟩ hA rfl rfl rfl

/-- Witness for C8 at `A = 100`, `T = 1`. -/
theorem optionPrice_vol_to_zero_witness :
    Filter.Tendsto (fun s : ℝ => OptionPrice ⟨100, 100, 1, 0, s⟩)
      (nhdsWithin 0 (Set.Ioi 0)) (nhds (max ((100:ℝ) - 100) 0)) ∧
    OptionPrice ⟨100, 100, 1, 0, 0⟩ = max ((100:ℝ) - 100) 0 :=
  optionPrice_vol_to_zero 100 1 (by norm_num) (by norm_num)

/-! ### Claim C9: the checked array model

The two `malloc`ed buffers are re-modelled as `List (Option ℝ)` of length
`n+1 = 1001`: a slot holds `none` while uninitialized.  Reads return
`none` on an out-of-bounds index or an uninitialized slot; writes return
`none` on an out-of-bounds index.  Each loop of `OptionPrice` is
transcribed sequentially, iteration by iteration, in its source order. -/

/-- Checked array read: fails out of bounds and on uninitialized memory. -/
def readSlot (a : List (Option ℝ)) (i : ℕ) : Option ℝ :=
  match a[i]? with
  | Option.none => none
  | Option.some Option.none => none
  | Option.some (Option.some x) => some x

/-- Checked array write: fails out of bounds. -/
def writeSlot (a : List (Option ℝ)) (i : ℕ) (x : ℝ) : Option (List (Option ℝ)) :=
  if i < a.length then some (a.set i (some x)) else none

/-- The inner forward loop `for (jdx = m; jdx >= 1; jdx--)
{ assetPrices[jdx] = u * assetPrices[jdx - 1]; }`, sequential, checked. -/
def fwdInner (uc : ℝ) : ℕ → List (Option ℝ) → Option (List (Option ℝ))
  | 0, a => some a
  | m + 1, a =>
    match readSlot a m with
    | Option.none => none
    | Option.some x =>
      match writeSlot a (m + 1) (uc * x) with
      | Option.none => none
      | Option.some a1 => fwdInner uc m a1

/-- One forward step: the inner loop, then `assetPrices[0] = v * assetPrices[0];`. -/
def fwdStep (uc vc : ℝ) (idx : ℕ) (a : List (Option ℝ)) : Option (List (Option ℝ)) :=
  match fwdInner uc idx a with
  | Option.none => none
  | Option.some a1 =>
    match readSlot a1 0 with
    | Option.none => none
    | Option.some x => writeSlot a1 0 (vc * x)

/-- The outer forward loop `for (idx = 1; idx <= k; idx++)`. -/
def fwdLoop (uc vc : ℝ) : ℕ → List (Option ℝ) → Option (List (Option ℝ))
  | 0, a => some a
  | k + 1, a =>
    match fwdLoop uc vc k a with
    | Option.none => none
    | Option.some a1 => fwdStep uc vc (k + 1) a1

/-- The terminal-payoff loop `for (jdx = 0; jdx <= m; jdx++)
{ optionPrices[jdx] = Payoff(assetPrices[jdx], strike); }`, checked. -/
noncomputable def payLoop (strike : ℝ) (ap : List (Option ℝ)) :
    ℕ → List (Option ℝ) → Option (List (Option ℝ))
  | 0, op =>
    match readSlot ap 0 with
    | Option.none => none
    | Option.some x => writeSlot op 0 (Payoff x strike)
  | m + 1, op =>
    match payLoop strike ap m op with
    | Option.none => none
    | Option.some op1 =>
      match readSlot ap (m + 1) with
      | Option.none => none
      | Option.some x => writeSlot op1 (m + 1) (Payoff x strike)

/-- The inner backward loop, iterations `jdx = 0 .. m-1` of
`optionPrices[jdx] = discount * (p * optionPrices[jdx+1] + (1-p) * optionPrices[jdx]);`,
sequential, checked. -/
def backInner (d q : ℝ) : ℕ → List (Option ℝ) → Option (List (Option ℝ))
  | 0, op => some op
  | m + 1, op =>
    match backInner d q m op with
    | Option.none => none
    | Option.some op1 =>
      match readSlot op1 (m + 1) with
      | Option.none => none
      | Option.some x1 =>
        match readSlot op1 m with
        | Option.none => none
        | Option.some x0 => writeSlot op1 m (d * (q * x1 + (1 - q) * x0))

/-- The outer backward loop: `k` passes, each the full inner loop with
bound `n` (`for (idx = n; idx >= 1; idx--)`). -/
def backLoop (d q : ℝ) (n : ℕ) : ℕ → List (Option ℝ) → Option (List (Option ℝ))
  | 0, op => some op
  | k + 1, op =>
    match backInner d q n op with
    | Option.none => none
    | Option.some op1 => backLoop d q n k op1

/-- `OptionPrice` in the checked model: allocate the two buffers
uninitialized, write `assetPrices[0] = opt.asset`, run the three loops in
source order, and read `optionPrices[0]`.  Any out-of-bounds access or
read of uninitialized memory yields `none`. -/
noncomputable def OptionPriceChecked (o : option) : Option ℝ :=
  (writeSlot (List.replicate 1001 none) 0 o.asset).bind fun ap0 =>
  (fwdLoop (u o 1000) (v o 1000) 1000 ap0).bind fun ap =>
  (payLoop o.strike ap 1000 (List.replicate 1001 none)).bind fun op0 =>
  (backLoop (discount o 1000) (p o 1000) 1000 1000 op0).bind fun op1 =>
  readSlot op1 0

lemma readSlot_of_getElem (al : List (Option ℝ)) (j : ℕ) (x : ℝ)
    (h : al[j]? = some (some x)) : readSlot al j = some x := by
  unfold readSlot
  rw [h]

lemma readSlot_congr (al al2 : List (Option ℝ)) (j : ℕ) (h : al[j]? = al2[j]?) :
    readSlot al j = readSlot al2 j := by
  unfold readSlot
  rw [h]

lemma writeSlot_of_lt (al : List (Option ℝ)) (i : ℕ) (x : ℝ) (h : i < al.length) :
    writeSlot al i x = some (al.set i (some x)) := by
  unfold writeSlot
  rw [if_pos h]

/-- The descending checked inner forward loop succeeds when slots
`0..m-1` are readable and `m` is in range, writing `u * f (j-1)` into each
slot `1..m` and leaving slot 0 and slots above `m` untouched. -/
lemma fwdInner_ok (uc : ℝ) :
    ∀ (m : ℕ) (al : List (Option ℝ)) (f : ℕ → ℝ),
      (∀ j, j < m → readSlot al j = some (f j)) → m < al.length →
      ∃ al', fwdInner uc m al = some al' ∧ al'.length = al.length ∧
        (∀ j, 1 ≤ j → j ≤ m → al'[j]? = some (some (uc * f (j - 1)))) ∧
        (∀ j, j = 0 ∨ m < j → al'[j]? = al[j]?) := by
  intro m
  induction m with
  | zero =>
      intro al f hread hm
      exact ⟨al, rfl, rfl, fun j h1 h2 => by omega, fun j hj => rfl⟩
  | succ m ih =>
      intro al f hread hm
      have hr : readSlot al m = some (f m) := hread m (by omega)
      have hw : writeSlot al (m + 1) (uc * f m) = some (al.set (m + 1) (some (uc * f m))) :=
        writeSlot_of_lt al (m + 1) (uc * f m) hm
      have hset : ∀ j, j < m → readSlot (al.set (m + 1) (some (uc * f m))) j = some (f j) := by
        intro j hj
        rw [readSlot_congr _ al j (List.getElem?_set_ne (by omega))]
        exact hread j (by omega)
      have hlen2 : m < (al.set (m + 1) (some (uc * f m))).length := by
        rw [List.length_set]
        omega
      obtain ⟨al', heq, hlen, hwr, hun⟩ := ih (al.set (m + 1) (some (uc * f m))) f hset hlen2
      refine ⟨al', ?_, by rw [hlen, List.length_set], ?_, ?_⟩
      · simp only [fwdInner, hr, hw]
        exact heq
      · intro j h1 h2
        rcases Nat.lt_or_ge j (m + 1) with hj | hj
        · exact hwr j h1 (by omega)
        · have hj' : j = m + 1 := by omega
          subst hj'
          rw [hun (m + 1) (Or.inr (by omega)), List.getElem?_set_eq_of_lt _ hm]
          norm_num
      · intro j hj
        rcases hj with hj | hj
        · rw [hun j (Or.inl hj)]
          exact List.getElem?_set_ne (by omega)
        · rw [hun j (Or.inr (by omega))]
          exact List.getElem?_set_ne (by omega)

/-- One checked forward step realizes the functional `forwardStep` on the
readable prefix `0..k+1` and leaves the rest untouched. -/
lemma fwdStep_ok (uc vc : ℝ) (k : ℕ) (al : List (Option ℝ)) (f : ℕ → ℝ)
    (hread : ∀ j, j ≤ k → al[j]? = some (some (f j)))
    (hk : k + 1 < al.length) :
    ∃ al', fwdStep uc vc (k + 1) al = some al' ∧ al'.length = al.length ∧
      (∀ j, j ≤ k + 1 → al'[j]? = some (some (forwardStep uc vc (k + 1) f j))) ∧
      (∀ j, k + 1 < j → al'[j]? = al[j]?) := by
  obtain ⟨a1, heq, hlen, hwr, hun⟩ := fwdInner_ok uc (k + 1) al f
    (fun j hj => readSlot_of_getElem al j (f j) (hread j (by omega))) hk
  have h0 : (0:ℕ) < a1.length := by omega
  have hr0 : readSlot a1 0 = some (f 0) := by
    apply readSlot_of_getElem
    rw [hun 0 (Or.inl rfl)]
    exact hread 0 (by omega)
  have hw0 : writeSlot a1 0 (vc * f 0) = some (a1.set 0 (some (vc * f 0))) :=
    writeSlot_of_lt a1 0 (vc * f 0) h0
  refine ⟨a1.set 0 (some (vc * f 0)), ?_, by rw [List.length_set, hlen], ?_, ?_⟩
  · simp only [fwdStep, heq, hr0, hw0]
  · intro j hj
    rcases Nat.eq_zero_or_pos j with hj0 | hjpos
    · subst hj0
      rw [List.getElem?_set_eq_of_lt _ h0]
      have : forwardStep uc vc (k + 1) f 0 = vc * f 0 := by
        unfold forwardStep
        rw [if_pos rfl]
      rw [this]
    · rw [List.getElem?_set_ne (by omega), hwr j (by omega) hj]
      have : forwardStep uc vc (k + 1) f j = uc * f (j - 1) := by
        unfold forwardStep
        rw [if_neg (by omega), if_pos hj]
      rw [this]
  · intro j hj
    rw [List.getElem?_set_ne (by omega)]
    exact hun j (Or.inr (by omega))

/-- The checked outer forward loop realizes the functional `forwardIter`:
after `k` steps slots `0..k` hold the lattice values and the rest of the
buffer is untouched (in particular, still uninitialized). -/
lemma fwdLoop_ok (uc vc : ℝ) (g : ℕ → ℝ) (al : List (Option ℝ))
    (h0 : al[0]? = some (some (g 0))) :
    ∀ k, k < al.length →
      ∃ al', fwdLoop uc vc k al = some al' ∧ al'.length = al.length ∧
        (∀ j, j ≤ k → al'[j]? = some (some (forwardIter uc vc k g j))) ∧
        (∀ j, k < j → al'[j]? = al[j]?) := by
  intro k
  induction k with
  | zero =>
      intro _
      refine ⟨al, rfl, rfl, ?_, fun j hj => rfl⟩
      intro j hj
      have hj0 : j = 0 := by omega
      subst hj0
      exact h0
  | succ k ih =>
      intro hk
      obtain ⟨al1, heq1, hlen1, hagr1, hun1⟩ := ih (by omega)
      obtain ⟨al', heq2, hlen2, hagr2, hun2⟩ := fwdStep_ok uc vc k al1
        (forwardIter uc vc k g) hagr1 (by omega)
      refine ⟨al', ?_, by rw [hlen2, hlen1], ?_, ?_⟩
      · simp only [fwdLoop, heq1]
        exact heq2
      · intro j hj
        exact hagr2 j hj
      · intro j hj
        rw [hun2 j hj]
        exact hun1 j (by omega)

/-- The checked terminal-payoff loop: reads slots `0..m` of the (fully
written) asset buffer and fills slots `0..m` of the payoff buffer. -/
lemma payLoop_ok (strike : ℝ) (ap : List (Option ℝ)) (fA : ℕ → ℝ)
    (hap : ∀ j, j < ap.length → ap[j]? = some (some (fA j))) :
    ∀ (m : ℕ) (op : List (Option ℝ)), m < ap.length → m < op.length →
      ∃ op', payLoop strike ap m op = some op' ∧ op'.length = op.length ∧
        (∀ j, j ≤ m → op'[j]? = some (some (Payoff (fA j) strike))) ∧
        (∀ j, m < j → op'[j]? = op[j]?) := by
  intro m
  induction m with
  | zero =>
      intro op hmap hmop
      have hr : readSlot ap 0 = some (fA 0) :=
        readSlot_of_getElem ap 0 (fA 0) (hap 0 hmap)
      have hw : writeSlot op 0 (Payoff (fA 0) strike) =
          some (op.set 0 (some (Payoff (fA 0) strike))) :=
        writeSlot_of_lt op 0 _ hmop
      refine ⟨op.set 0 (some (Payoff (fA 0) strike)), ?_, List.length_set op 0 _, ?_, ?_⟩
      · simp only [payLoop, hr]
        exact hw
      · intro j hj
        have hj0 : j = 0 := by omega
        subst hj0
        exact List.getElem?_set_eq_of_lt _ hmop
      · intro j hj
        exact List.getElem?_set_ne (by omega)
  | succ m ih =>
      intro op hmap hmop
      obtain ⟨op1, heq1, hlen1, hagr1, hun1⟩ := ih op (by omega) (by omega)
      have hr : readSlot ap (m + 1) = some (fA (m + 1)) :=
        readSlot_of_getElem ap (m + 1) (fA (m + 1)) (hap (m + 1) hmap)
      have hw : writeSlot op1 (m + 1) (Payoff (fA (m + 1)) strike) =
          some (op1.set (m + 1) (some (Payoff (fA (m + 1)) strike))) :=
        writeSlot_of_lt op1 (m + 1) _ (by omega)
      refine ⟨op1.set (m + 1) (some (Payoff (fA (m + 1)) strike)), ?_,
        by rw [List.length_set, hlen1], ?_, ?_⟩
      · simp only [payLoop, heq1, hr]
        exact hw
      · intro j hj
        rcases Nat.lt_or_ge j (m + 1) with hjlt | hjge
        · rw [List.getElem?_set_ne (by omega)]
          exact hagr1 j (by omega)
        · have hj1 : j = m + 1 := by omega
          subst hj1
          exact List.getElem?_set_eq_of_lt _ (by omega)
      · intro j hj
        rw [List.getElem?_set_ne (by omega)]
        exact hun1 j (by omega)

/-- The checked inner backward loop over `jdx = 0..m-1` realizes one
functional `backStep` with bound `m` on a fully written buffer; the
crucial read `optionPrices[jdx+1]` (at `jdx = m-1` the slot `m`) is of a
slot not yet rewritten in this pass. -/
lemma backInner_ok (d q : ℝ) :
    ∀ (m : ℕ) (op : List (Option ℝ)) (g : ℕ → ℝ),
      (∀ j, j < op.length → op[j]? = some (some (g j))) → m < op.length →
      ∃ op', backInner d q m op = some op' ∧ op'.length = op.length ∧
        (∀ j, j < op.length → op'[j]? = some (some (backStep d q m g j))) := by
  intro m
  induction m with
  | zero =>
      intro op g hop _
      refine ⟨op, rfl, rfl, ?_⟩
      intro j hj
      have : backStep d q 0 g j = g j := by
        unfold backStep
        rw [if_neg (Nat.not_lt_zero j)]
      rw [this]
      exact hop j hj
  | succ m ih =>
      intro op g hop hm
      obtain ⟨op1, heq1, hlen1, hagr1⟩ := ih op g hop (by omega)
      have hx1 : readSlot op1 (m + 1) = some (g (m + 1)) := by
        apply readSlot_of_getElem
        have := hagr1 (m + 1) (by omega)
        have hb : backStep d q m g (m + 1) = g (m + 1) := by
          unfold backStep
          rw [if_neg (by omega)]
        rwa [hb] at this
      have hx0 : readSlot op1 m = some (g m) := by
        apply readSlot_of_getElem
        have := hagr1 m (by omega)
        have hb : backStep d q m g m = g m := by
          unfold backStep
          rw [if_neg (by omega)]
        rwa [hb] at this
      have hw : writeSlot op1 m (d * (q * g (m + 1) + (1 - q) * g m)) =
          some (op1.set m (some (d * (q * g (m + 1) + (1 - q) * g m)))) :=
        writeSlot_of_lt op1 m _ (by omega)
      refine ⟨op1.set m (some (d * (q * g (m + 1) + (1 - q) * g m))), ?_,
        by rw [List.length_set, hlen1], ?_⟩
      · simp only [backInner, heq1, hx1, hx0]
        exact hw
      · intro j hj
        rcases Nat.lt_trichotomy j m with hjlt | hjeq | hjgt
        · rw [List.getElem?_set_ne (by omega), hagr1 j hj]
          have h1 : backStep d q m g j = d * (q * g (j + 1) + (1 - q) * g j) := by
            unfold backStep
            rw [if_pos (by omega)]
          have h2 : backStep d q (m + 1) g j = d * (q * g (j + 1) + (1 - q) * g j) := by
            unfold backStep
            rw [if_pos (by omega)]
          rw [h1, h2]
        · subst hjeq
          rw [List.getElem?_set_eq_of_lt _ (by omega)]
          have h2 : backStep d q (j + 1) g j = d * (q * g (j + 1) + (1 - q) * g j) := by
            unfold backStep
            rw [if_pos (by omega)]
          rw [h2]
        · rw [List.getElem?_set_ne (by omega), hagr1 j hj]
          have h1 : backStep d q m g j = g j := by
            unfold backStep
            rw [if_neg (by omega)]
          have h2 : backStep d q (m + 1) g j = g j := by
            unfold backStep
            rw [if_neg (by omega)]
          rw [h1, h2]

/-- The checked outer backward loop realizes the functional `backIterFull`. -/
lemma backLoop_ok (d q : ℝ) (n : ℕ) :
    ∀ (k : ℕ) (op : List (Option ℝ)) (g : ℕ → ℝ),
      (∀ j, j < op.length → op[j]? = some (some (g j))) → n < op.length →
      ∃ op', backLoop d q n k op = some op' ∧ op'.length = op.length ∧
        (∀ j, j < op.length → op'[j]? = some (some (backIterFull d q n k g j))) := by
  intro k
  induction k with
  | zero =>
      intro op g hop _
      exact ⟨op, rfl, rfl, hop⟩
  | succ k ih =>
      intro op g hop hn
      obtain ⟨op1, heq1, hlen1, hagr1⟩ := backInner_ok d q n op g hop hn
      obtain ⟨op', heq2, hlen2, hagr2⟩ := ih op1 (backStep d q n g)
        (fun j hj => hagr1 j (by omega)) (by omega)
      refine ⟨op', ?_, by rw [hlen2, hlen1], ?_⟩
      · simp only [backLoop, heq1]
        exact heq2
      · intro j hj
        exact hagr2 j (by omega)

set_option maxRecDepth 2000 in
/-- Claim C9: with `n = 1000`, every array access of `OptionPrice` is in
bounds and every read is of a previously written slot: in the checked
model (`Option`-returning indexing, `none` for uninitialized memory) the
whole computation succeeds, and it returns the value of the functional
model, `some (OptionPrice o)`. -/
theorem optionPriceChecked_ok (o : option) :
    OptionPriceChecked o = some (OptionPrice o) := by
  have hrep : (List.replicate 1001 (none : Option ℝ)).length = 1001 :=
    List.length_replicate 1001 none
  have hw0 : writeSlot (List.replicate 1001 none) 0 o.asset =
      some ((List.replicate 1001 (none : Option ℝ)).set 0 (some o.asset)) :=
    writeSlot_of_lt _ 0 o.asset (by omega)
  have hap00 : ((List.replicate 1001 (none : Option ℝ)).set 0 (some o.asset))[0]? =
      some (some (assetInit o 0)) := by
    rw [List.getElem?_set_eq_of_lt _ (by omega)]
    have : assetInit o 0 = o.asset := by
      unfold assetInit
      rw [if_pos rfl]
    rw [this]
  have hsetlen : ((List.replicate 1001 (none : Option ℝ)).set 0 (some o.asset)).length
      = 1001 := by
    rw [List.length_set]
    exact hrep
  obtain ⟨ap, hapeq, haplen, hapagr, -⟩ :=
    fwdLoop_ok (u o 1000) (v o 1000) (assetInit o)
      ((List.replicate 1001 (none : Option ℝ)).set 0 (some o.asset)) hap00 1000
      (by omega)
  have haplen' : ap.length = 1001 := by
    rw [haplen]
    exact hsetlen
  have hapall : ∀ j, j < ap.length → ap[j]? = some (some (assetPrices o 1000 j)) := by
    intro j hj
    exact hapagr j (by omega)
  obtain ⟨op0, hopeq, hoplen, hopagr, -⟩ :=
    payLoop_ok o.strike ap (assetPrices o 1000) hapall 1000
      (List.replicate 1001 none) (by omega) (by omega)
  have hoplen' : op0.length = 1001 := by
    rw [hoplen]
    exact hrep
  have hopall : ∀ j, j < op0.length → op0[j]? = some (some (optionPrices o 1000 j)) := by
    intro j hj
    exact hopagr j (by omega)
  obtain ⟨op1, hbeq, hblen, hbagr⟩ :=
    backLoop_ok (discount o 1000) (p o 1000) 1000 1000 op0
      (optionPrices o 1000) hopall (by omega)
  have hfinal : readSlot op1 0 = some (OptionPrice o) := by
    apply readSlot_of_getElem
    exact hbagr 0 (by omega)
  unfold OptionPriceChecked
  rw [hw0, Option.some_bind, hapeq, Option.some_bind, hopeq, Option.some_bind,
    hbeq, Option.some_bind]
  exact hfinal

end Binomial
